import Mathlib

/-!
Verification of the two core algorithms of the Motriforge developer-tooling
pipeline:

* `remove_comments` from `src/scripts/flatten.py` (the comment stripper), and
* `extract_segments` from `src/scripts/process_ai_gen.py` (the segment
  extractor).

Text is modelled as `List Char`; a Python string is read as its character
sequence.  Every definition below is translated from the Python source.
Unicode-only behaviour of Python's `str` methods (exotic line boundaries such
as `\x1c`..`\x1e`, `\x85`, `U+2028/9`, and non-ASCII whitespace or word
characters) is outside the character repertoire of the texts this development
reasons about and is not modelled; the ASCII fragment is modelled exactly.
-/

/-- ASCII fragment of the whitespace class used by Python's `str.strip()` and
the regex class `\s`: space, tab, newline, carriage return, vertical tab and
form feed. -/
def isPySpace (c : Char) : Bool :=
  c = ' ' || c = '\t' || c = '\n' || c = '\r' || c = '\x0b' || c = '\x0c'

/-- The two quote delimiters recognised by `remove_comments`
(`line[i] in ('"', "'")`). -/
def isQuoteChar (c : Char) : Bool :=
  c = '"' || c = '\''

/-- ASCII fragment of the regex class `\w`: letters, digits and underscore. -/
def isWordChar (c : Char) : Bool :=
  c.isAlphanum || c = '_'

/-- The character class `[\w\-./]` of `path_pattern` in
`src/scripts/process_ai_gen.py`. -/
def isPathTokChar (c : Char) : Bool :=
  isWordChar c || c = '-' || c = '.' || c = '/'

/-- Worker for `str.splitlines(keepends=True)` over the `\n` / `\r\n` / `\r`
line boundaries: `acc` holds the characters of the current line in reverse. -/
def splitKeepAux : List Char → List Char → List (List Char)
  | [], acc => if acc.isEmpty then [] else [acc.reverse]
  | '\r' :: '\n' :: rest, acc => (acc.reverse ++ ['\r', '\n']) :: splitKeepAux rest []
  | '\r' :: rest, acc => (acc.reverse ++ ['\r']) :: splitKeepAux rest []
  | '\n' :: rest, acc => (acc.reverse ++ ['\n']) :: splitKeepAux rest []
  | c :: rest, acc => splitKeepAux rest (c :: acc)

/-- Python's `str.splitlines(keepends=True)`, as used by `extract_segments`. -/
def splitlinesKeep (content : List Char) : List (List Char) :=
  splitKeepAux content []

/-- Remove the line terminator kept at the end of a `splitlinesKeep` line. -/
def stripTerm : List Char → List Char
  | [] => []
  | ['\n'] => []
  | ['\r'] => []
  | ['\r', '\n'] => []
  | c :: rest => c :: stripTerm rest

/-- Python's `str.splitlines()` (terminators dropped), as used by
`remove_comments`. -/
def splitlinesNoEnds (content : List Char) : List (List Char) :=
  (splitlinesKeep content).map stripTerm

/-- Python's `str.lstrip()` over the modelled whitespace class. -/
def pyLstrip (l : List Char) : List Char :=
  l.dropWhile isPySpace

/-- Python's `str.rstrip()` over the modelled whitespace class. -/
def pyRstrip (l : List Char) : List Char :=
  (l.reverse.dropWhile isPySpace).reverse

/-- Python's `str.strip()` over the modelled whitespace class. -/
def pyStrip (l : List Char) : List Char :=
  pyRstrip (pyLstrip l)

/-!
Comment stripper (`remove_comments`, src/scripts/flatten.py lines 18-42)

The first pass is `re.sub(r'/\*\*[\s\S]*?\*/', '', content)`.  The regex
engine finds, at each successive start position, the leftmost occurrence of
the three-character open token `/**`; the lazy `[\s\S]*?` then extends the
match to the *first* occurrence of the close token `*/` beginning at least
three characters after the match start.  If no close token follows an open
token, that open token (and hence every later one) produces no match and the
text is left as it stands.  Substitution resumes after the removed span, so
removed spans never recombine with earlier text.
-/

/-- Scan for the first close token `*/`; on success return the text after it
(the lazy `[\s\S]*?\*/` step of the block-comment regex). -/
def dropToClose : List Char → Option (List Char)
  | [] => none
  | c :: rest =>
    if c = '*' ∧ rest.head? = some '/' then some rest.tail else dropToClose rest

/-- Fuelled worker for the block-comment pass; `fuel` only needs to dominate
the length of the text (see `removeBlockComments`).  A `/**` with a later
close token removes the whole span and continues after it; a `/**` without a
close token matches nothing and ends the pass. -/
def rbcAux : Nat → List Char → List Char
  | _, [] => []
  | 0, l => l
  | Nat.succ fuel, c :: rest =>
    if c = '/' ∧ rest.take 2 = ['*', '*'] then
      match dropToClose (rest.drop 2) with
      | some r => rbcAux fuel r
      | none => c :: rest
    else c :: rbcAux fuel rest

/-- The block-comment pass `re.sub(r'/\*\*[\s\S]*?\*/', '', content)`. -/
def removeBlockComments (content : List Char) : List Char :=
  rbcAux content.length content

/-- One step of the quote-tracking state `quote_open` of `remove_comments`:
an unset state opens with the delimiter just read, the matching delimiter
closes it, and a different quote leaves the state unchanged. -/
def toggleQuote (q : Option Char) (c : Char) : Option Char :=
  match q with
  | none => some c
  | some d => if c = d then none else some d

/-- The inner character loop of `remove_comments` on one line: `q` is the
`quote_open` state.  A quote character is copied after toggling the state; an
unquoted `//` (two characters) ends the line (`break`); everything else is
copied verbatim. -/
def stripLine : List Char → Option Char → List Char
  | [], _ => []
  | c :: rest, q =>
    if isQuoteChar c then c :: stripLine rest (toggleQuote q c)
    else if q = none ∧ c = '/' ∧ rest.head? = some '/' then []
    else c :: stripLine rest q

/-- The line loop of `remove_comments`: strip each line, drop it when blank
after stripping, and right-strip the kept lines. -/
def processLines : List (List Char) → List (List Char)
  | [] => []
  | l :: rest =>
    if (pyStrip (stripLine l none)).isEmpty then processLines rest
    else pyRstrip (stripLine l none) :: processLines rest

/-- Function `remove_comments` from src/scripts/flatten.py: block-comment pass, then
the per-line scan, then `'\n'.join(cleaned_lines)`. -/
def removeComments (content : List Char) : List Char :=
  List.intercalate ['\n'] (processLines (splitlinesNoEnds (removeBlockComments content)))

/-- Quote state reached after scanning a list of characters (the value of
`quote_open` at the end of the scan, ignoring the comment `break`). -/
def scanQuote : List Char → Option Char → Option Char
  | [], q => q
  | c :: rest, q =>
    if isQuoteChar c then scanQuote rest (toggleQuote q c) else scanQuote rest q

/-- Predicate: `noUnquotedDS l q = true` when the scan of `l` started in quote state `q`
never meets a `//` token while the quote state is unset (so the per-line loop
never breaks inside `l`).  The final lookahead sees only characters of `l`. -/
def noUnquotedDS : List Char → Option Char → Bool
  | [], _ => true
  | c :: rest, q =>
    if isQuoteChar c then noUnquotedDS rest (toggleQuote q c)
    else if q = none ∧ c = '/' ∧ rest.head? = some '/' then false
    else noUnquotedDS rest q

/-- The text contains the two-character line-comment token `//`. -/
def hasDS : List Char → Bool
  | [] => false
  | c :: rest => (decide (c = '/') && decide (rest.head? = some '/')) || hasDS rest

/-- The text contains the three-character block-comment open token `/**`. -/
def hasOpen : List Char → Bool
  | [] => false
  | c :: rest => (decide (c = '/') && decide (rest.take 2 = ['*', '*'])) || hasOpen rest

/-- The text contains the block-comment close token `*/`. -/
def hasClose : List Char → Bool
  | [] => false
  | c :: rest => (decide (c = '*') && decide (rest.head? = some '/')) || hasClose rest

/-!
Segment extractor (`extract_segments`, src/scripts/process_ai_gen.py lines 5-49)

The annotation pattern is
`re.compile(r'^[ \t]*(?://|#)\s*(?P<path>@?[\w\-./]+\.[\w]+)')`, applied with
`.match` (anchored at the start of each line).  The embedding below resolves
the regex's backtracking once and for all:

* `[ \t]*` and `\s*` are greedy, and no whitespace character belongs to the
  classes that must match next (`/`, `#`, `@`, `[\w\-./]`), so maximal munch
  is exact;
* `@?` must consume a leading `@` when present, because `@` is not in
  `[\w\-./]` and the following `+` could never match it;
* `[\w\-./]+\.[\w]+` first consumes the maximal run of class characters, then
  backtracks: the match succeeds exactly when the run has a dot at some index
  `j ≥ 1` followed by a word character, the *largest* such `j` is chosen, and
  the extension is the maximal word-character run after that dot.
-/

/-- Largest index `j` in the list with a dot at `j` and a word character at
`j + 1` (the backtracking choice of `\.[\w]+` inside the maximal class run). -/
def lastDotWord : List Char → Option Nat
  | [] => none
  | c :: rest =>
    match lastDotWord rest with
    | some j => some (j + 1)
    | none => if c = '.' ∧ rest.head?.any isWordChar = true then some 0 else none

/-- Match `[\w\-./]+\.[\w]+` at the start of `r`, returning the matched
characters. -/
def matchCore (r : List Char) : Option (List Char) :=
  match lastDotWord (r.takeWhile isPathTokChar) with
  | some j =>
    if 1 ≤ j then
      some ((r.takeWhile isPathTokChar).take (j + 1) ++
        ((r.takeWhile isPathTokChar).drop (j + 1)).takeWhile isWordChar)
    else none
  | none => none

/-- Match `@?[\w\-./]+\.[\w]+` at the start of `s`. -/
def matchPathTok (s : List Char) : Option (List Char) :=
  match s with
  | '@' :: r => (matchCore r).map (fun t => '@' :: t)
  | r => matchCore r

/-- Model of `path_pattern.match(line)`, returning the `path` group on success. -/
def pathPatternMatch (line : List Char) : Option (List Char) :=
  match line.dropWhile (fun c => c = ' ' || c = '\t') with
  | '/' :: '/' :: r => matchPathTok (r.dropWhile isPySpace)
  | '#' :: r => matchPathTok (r.dropWhile isPySpace)
  | _ => none

/-- Python's `str.replace('@/', 'src/')`: every occurrence of `@/` is
replaced, scanning left to right and resuming after each replacement. -/
def replaceAtSlash : List Char → List Char
  | [] => []
  | [c] => [c]
  | c :: d :: rest =>
    if c = '@' ∧ d = '/' then 's' :: 'r' :: 'c' :: '/' :: replaceAtSlash rest
    else c :: replaceAtSlash (d :: rest)

/-- Path normalisation of `extract_segments`:
`raw_path.replace('@/','src/') if raw_path.startswith('@/') else raw_path`. -/
def normalizePath (p : List Char) : List Char :=
  if p.take 2 = ['@', '/'] then replaceAtSlash p else p

/-- Model of `if current_path and current_lines: segments.append((current_path,
''.join(current_lines)))` — the pending segment, when both are non-empty.
(A matched path is never the empty string, so `some p` models a truthy
`current_path`.) -/
def finalizeSeg : Option (List Char) → List (List Char) → List (List Char × List Char)
  | some p, l :: ls => [(p, (l :: ls).flatten)]
  | _, _ => []

/-- The cursor loop of `extract_segments` over the `keepends` lines.  The
source advances an index `i`, stepping it twice when the line after an
annotation is blank; here that pending conditional skip is carried by the
`skipBlank` flag, so each step consumes exactly one line: a blank line is
consumed silently when the flag is set, an annotation line saves the pending
segment and starts a new one with the flag set, and any other line is
accumulated when a path is current and discarded otherwise.  At the end the
final pending segment is saved. -/
def extractLoop : List (List Char) → Bool → Option (List Char) → List (List Char) →
    List (List Char × List Char) → List (List Char × List Char)
  | [], _, cur, acc, segs => segs ++ finalizeSeg cur acc
  | line :: rest, skipBlank, cur, acc, segs =>
    if skipBlank = true ∧ pyStrip line = [] then extractLoop rest false cur acc segs
    else
      match pathPatternMatch line with
      | some raw =>
        extractLoop rest true (some (normalizePath raw)) [] (segs ++ finalizeSeg cur acc)
      | none =>
        match cur with
        | some _ => extractLoop rest false cur (acc ++ [line]) segs
        | none => extractLoop rest false cur acc segs

/-- Function `extract_segments` from src/scripts/process_ai_gen.py, as a function of
the file's text. -/
def extractSegments (content : List Char) : List (List Char × List Char) :=
  extractLoop (splitlinesKeep content) false none [] []

/-!
Structured inputs for the round-trip claim

`assemble` builds an input out of annotation blocks: an annotation line, an
optional blank separator line, and the block's content lines.  `goodBlock`
states the well-formedness conditions under which `extract_segments` maps the
block to exactly one segment.
-/

/-- A `\n`-terminated line whose body contains no line boundary, i.e. one
element of a `splitlines(keepends=True)` result. -/
def isProperLine (l : List Char) : Bool :=
  !l.isEmpty && decide (l.getLast? = some '\n') &&
    l.dropLast.all (fun c => decide (c ≠ '\n') && decide (c ≠ '\r'))

/-- One annotated block of a generated file. -/
structure Block where
  ann : List Char
  blank : Option (List Char)
  content : List (List Char)

/-- The lines of a block, in file order. -/
def blockLines (b : Block) : List (List Char) :=
  b.ann :: (b.blank.toList ++ b.content)

/-- All lines of a sequence of blocks. -/
def assembleLines (bs : List Block) : List (List Char) :=
  (bs.map blockLines).flatten

/-- The text of a sequence of blocks. -/
def assemble (bs : List Block) : List Char :=
  (assembleLines bs).flatten

/-- The normalised destination path of a block's annotation line. -/
def segPath (b : Block) : List Char :=
  normalizePath ((pathPatternMatch b.ann).getD [])

/-- The segment `extract_segments` produces for one well-formed block. -/
def segOf (b : Block) : List Char × List Char :=
  (segPath b, b.content.flatten)

/-- Well-formedness of a block: the annotation is a proper line matching the
annotation pattern; the optional separator is a proper blank line; the content
is a non-empty list of proper non-annotation lines whose first line is not
blank when the separator is absent (otherwise the extractor would consume it
as the separator). -/
def goodBlock (b : Block) : Prop :=
  isProperLine b.ann = true ∧ (pathPatternMatch b.ann).isSome = true ∧
    b.blank.all (fun bl => isProperLine bl && (pyStrip bl).isEmpty) = true ∧
    b.content ≠ [] ∧ (∀ l ∈ b.content, isProperLine l = true ∧ pathPatternMatch l = none) ∧
    (b.blank = none → pyStrip b.content.headI ≠ [])

instance (b : Block) : Decidable (goodBlock b) := by
  unfold goodBlock; infer_instance

/-!
Spec-side comparators for claim C5

`remove_comments` is claimed to be the identity up to blank-line removal on
quote-free, comment-free text; `blankLinesRemoved` renders the claim's words
and `strippedDense` the behaviour the code actually has (it also right-strips
every kept line, src/scripts/flatten.py line 41).
-/

/-- Spec wording of C5: the input with blank (empty or all-whitespace) lines
removed, lines rejoined with a single newline. -/
def blankLinesRemoved (x : List Char) : List Char :=
  List.intercalate ['\n'] ((splitlinesNoEnds x).filter (fun l => !(pyStrip l).isEmpty))

/-- What the code does on quote-free, comment-free text: blank lines removed
and every kept line right-stripped. -/
def strippedDense (x : List Char) : List Char :=
  List.intercalate ['\n']
    ((splitlinesNoEnds x).filterMap
      (fun l => if (pyStrip l).isEmpty then none else some (pyRstrip l)))

/-! Character-class facts -/

theorem isQuoteChar_cases {c : Char} (h : isQuoteChar c = true) : c = '"' ∨ c = '\'' := by
  simpa [isQuoteChar] using h

theorem quote_ne_slash {c : Char} (h : isQuoteChar c = true) : c ≠ '/' := by
  rcases isQuoteChar_cases h with h' | h' <;> simp [h']

theorem isPySpace_cases {c : Char} (h : isPySpace c = true) :
    c = ' ' ∨ c = '\t' ∨ c = '\n' ∨ c = '\r' ∨ c = '\x0b' ∨ c = '\x0c' := by
  simpa [isPySpace, or_assoc] using h

theorem pySpace_pathTok {c : Char} (h : isPySpace c = true) : isPathTokChar c = false := by
  rcases isPySpace_cases h with h' | h' | h' | h' | h' | h' <;> subst h' <;> decide

theorem pathTok_not_pySpace {c : Char} (h : isPathTokChar c = true) : isPySpace c = false := by
  cases hs : isPySpace c with
  | false => rfl
  | true => rw [pySpace_pathTok hs] at h; cases h

theorem wordChar_pathTok {c : Char} (h : isWordChar c = true) : isPathTokChar c = true := by
  simp [isPathTokChar, h]

theorem wordChar_ne_dot {c : Char} (h : isWordChar c = true) : c ≠ '.' := by
  intro h'; subst h'; simp [isWordChar] at h

theorem pathTok_ne_at {c : Char} (h : isPathTokChar c = true) : c ≠ '@' := by
  intro h'; subst h'; simp [isPathTokChar, isWordChar] at h

/-! Small list facts -/

theorem head?_append_take1 {α : Type} (u v : List α) :
    (u ++ v).head? = (u ++ v.take 1).head? := by
  cases u <;> cases v <;> simp

theorem hasDS_cons_elim {c : Char} {l : List Char} (h : hasDS (c :: l) = false) :
    ¬(c = '/' ∧ l.head? = some '/') ∧ hasDS l = false := by
  simp only [hasDS, Bool.or_eq_false_iff, Bool.and_eq_false_iff,
    decide_eq_false_iff_not] at h
  exact ⟨fun hc => h.1.elim (fun h1 => h1 hc.1) (fun h2 => h2 hc.2), h.2⟩

/-! Per-line scan lemmas -/

/-- On a quote-free line without a `//` token, the per-line scan is the
identity. -/
theorem stripLine_id : ∀ (l : List Char), (∀ c ∈ l, isQuoteChar c = false) →
    hasDS l = false → stripLine l none = l := by
  intro l
  induction l with
  | nil => intro _ _; rfl
  | cons c rest ih =>
    intro hq hds
    have hqc : isQuoteChar c = false := hq c (List.mem_cons_self c rest)
    obtain ⟨hc, hrest⟩ := hasDS_cons_elim hds
    simp only [stripLine, hqc, Bool.false_eq_true, if_false]
    rw [if_neg (fun hcond => hc ⟨hcond.2.1, hcond.2.2⟩)]
    rw [ih (fun d hd => hq d (List.mem_cons_of_mem c hd)) hrest]

/-- Main passage lemma: so long as the scan meets no unquoted `//`, scanning
`u ++ tail` copies `u` and continues on `tail` in the quote state reached
after `u`. -/
theorem stripLine_append : ∀ (u : List Char) (tail : List Char) (q : Option Char),
    noUnquotedDS (u ++ tail.take 1) q = true →
    stripLine (u ++ tail) q = u ++ stripLine tail (scanQuote u q) := by
  intro u
  induction u with
  | nil => intro tail q _; simp [scanQuote]
  | cons c u' ih =>
    intro tail q h
    rw [List.cons_append] at *
    cases hq : isQuoteChar c with
    | true =>
      simp only [noUnquotedDS, hq, if_true] at h
      simp only [stripLine, hq, if_true]
      rw [ih tail (toggleQuote q c) h]
      simp [scanQuote, hq]
    | false =>
      simp only [noUnquotedDS, hq, Bool.false_eq_true, if_false] at h
      by_cases hcond : q = none ∧ c = '/' ∧ (u' ++ tail).head? = some '/'
      · have hcond2 : q = none ∧ c = '/' ∧ (u' ++ tail.take 1).head? = some '/' := by
          rwa [head?_append_take1 u' tail] at hcond
        rw [if_pos hcond2] at h
        cases h
      · have hcond' : ¬(q = none ∧ c = '/' ∧ (u' ++ tail.take 1).head? = some '/') := by
          rwa [head?_append_take1 u' tail] at hcond
        rw [if_neg hcond'] at h
        simp only [stripLine, hq, Bool.false_eq_true, if_false]
        rw [if_neg hcond, ih tail q h]
        simp [scanQuote, hq]

/-- Unquoted `//` stops the scan at once. -/
theorem stripLine_ds {v : List Char} : stripLine ('/' :: '/' :: v) none = [] := by
  simp [stripLine, isQuoteChar]

/-- C3: for every line in which the line-comment token `//` occurs while the
quote state is unset — the scan reaches the token without an earlier unquoted
`//` (`noUnquotedDS`) and with the quote state unset (`scanQuote`) — the
per-line scan of `remove_comments` keeps exactly the characters before the
token: everything from the token to the end of the line is removed. -/
theorem c3_unquoted_comment_removed (u v : List Char)
    (hsafe : noUnquotedDS (u ++ ['/']) none = true)
    (hstate : scanQuote u none = none) :
    stripLine (u ++ '/' :: '/' :: v) none = u := by
  have h := stripLine_append u ('/' :: '/' :: v) none (by simpa using hsafe)
  rw [hstate] at h
  rw [h, stripLine_ds, List.append_nil]

/-- Witness for C3 at the line `x = "u//r" + w //comment`: the quoted `//`
survives, the unquoted one truncates the line. -/
theorem c3_unquoted_comment_removed_witness :
    stripLine (("x = \"u//r\" + w ".toList) ++ '/' :: '/' :: ("comment".toList)) none =
      ("x = \"u//r\" + w ".toList) :=
  c3_unquoted_comment_removed ("x = \"u//r\" + w ".toList) ("comment".toList)
    (by decide) (by decide)

/-- Passage through an open quoted span: while the quote state holds `d`,
every character other than `d` is copied verbatim (a `//` token included,
since the comment test requires the quote state to be unset). -/
theorem stripLine_quoted : ∀ (mid tail : List Char) (d : Char), (∀ c ∈ mid, c ≠ d) →
    stripLine (mid ++ tail) (some d) = mid ++ stripLine tail (some d) := by
  intro mid
  induction mid with
  | nil => intro tail d _; rfl
  | cons c mid' ih =>
    intro tail d hmid
    have hcd : c ≠ d := hmid c (List.mem_cons_self c mid')
    have ihm : ∀ c ∈ mid', c ≠ d := fun e he => hmid e (List.mem_cons_of_mem c he)
    rw [List.cons_append]
    cases hq : isQuoteChar c with
    | true =>
      simp only [stripLine, hq, if_true, toggleQuote, if_neg hcd]
      rw [ih tail d ihm, List.cons_append]
    | false =>
      simp only [stripLine, hq, Bool.false_eq_true, if_false]
      rw [if_neg (fun hcond => by cases hcond.1), ih tail d ihm, List.cons_append]

/-- A quote-free, `//`-free prefix followed by a quote delimiter is scanned
without meeting an unquoted comment token. -/
theorem noUnquotedDS_pre : ∀ (pre : List Char) (d : Char),
    (∀ c ∈ pre, isQuoteChar c = false) → hasDS pre = false → isQuoteChar d = true →
    noUnquotedDS (pre ++ [d]) none = true := by
  intro pre
  induction pre with
  | nil =>
    intro d _ _ hd
    simp [noUnquotedDS, hd]
  | cons c pre' ih =>
    intro d hq hds hd
    have hqc : isQuoteChar c = false := hq c (List.mem_cons_self c pre')
    obtain ⟨hc, hrest⟩ := hasDS_cons_elim hds
    rw [List.cons_append]
    simp only [noUnquotedDS, hqc, Bool.false_eq_true, if_false]
    rw [if_neg]
    · exact ih d (fun e he => hq e (List.mem_cons_of_mem c he)) hrest hd
    · intro hcond
      cases pre' with
      | nil => exact quote_ne_slash hd (by simpa using hcond.2.2)
      | cons p0 pr => exact hc ⟨hcond.2.1, by simpa using hcond.2.2⟩

/-- A quote-free list leaves the quote state unchanged. -/
theorem scanQuote_quoteFree : ∀ (l : List Char) (q : Option Char),
    (∀ c ∈ l, isQuoteChar c = false) → scanQuote l q = q := by
  intro l
  induction l with
  | nil => intro q _; rfl
  | cons c l' ih =>
    intro q h
    have hqc : isQuoteChar c = false := h c (List.mem_cons_self c l')
    simp only [scanQuote, hqc, Bool.false_eq_true, if_false]
    exact ih q (fun e he => h e (List.mem_cons_of_mem c he))

/-- C2, counterexample to the claim as stated: in the line `"//" //x` the
token `//` occurs inside a matched quoted string, yet the text after it on
the line is *not* all preserved — the later unquoted `//` starts a comment,
so the character `x` (which follows the quoted token on the line) is removed
from the output of `remove_comments`. -/
theorem c2_counterexample :
    removeComments ("\"//\" //x".toList) = ("\"//\"".toList) ∧
      'x' ∉ removeComments ("\"//\" //x".toList) := by
  constructor
  · decide
  · decide

/-- C2, amended: on every line `pre ++ d :: mid ++ d :: post` whose quoted
span `mid` contains a `//` token, where the per-line scan reaches the opening
delimiter without breaking (`noUnquotedDS`) and with the quote state unset
(`scanQuote`) — i.e. the span is a matched quoted string of the scan, be it
the first on the line or a later one — `remove_comments` preserves the token
and the whole quoted span verbatim: the in-string `//` is not treated as a
comment start, and comment stripping resumes only after the closing
delimiter. -/
theorem c2_quoted_token_preserved (pre mid post : List Char) (d : Char)
    (hd : isQuoteChar d = true)
    (hpre : noUnquotedDS (pre ++ [d]) none = true)
    (hstate : scanQuote pre none = none)
    (hmid : ∀ c ∈ mid, c ≠ d)
    (_htoken : hasDS mid = true) :
    stripLine (pre ++ d :: (mid ++ d :: post)) none =
      pre ++ d :: (mid ++ d :: stripLine post none) := by
  have hpass := stripLine_append pre (d :: (mid ++ d :: post)) none (by simpa using hpre)
  rw [hstate] at hpass
  rw [hpass]
  have hopen : stripLine (d :: (mid ++ d :: post)) none =
      d :: stripLine (mid ++ d :: post) (some d) := by
    simp [stripLine, hd, toggleQuote]
  rw [hopen, stripLine_quoted mid (d :: post) d hmid]
  have hclosed : stripLine (d :: post) (some d) = d :: stripLine post none := by
    simp [stripLine, hd, toggleQuote]
  rw [hclosed]

/-- Witness for the amended C2 on the line `x = "a" + "b//c" + y//z`, whose
in-string token sits in the second quoted span of the line. -/
theorem c2_quoted_token_preserved_witness :
    stripLine (("x = \"a\" + ".toList) ++
        '"' :: (("b//c".toList) ++ '"' :: (" + y//z".toList))) none =
      ("x = \"a\" + ".toList) ++
        '"' :: (("b//c".toList) ++ '"' :: stripLine (" + y//z".toList) none) :=
  c2_quoted_token_preserved ("x = \"a\" + ".toList) ("b//c".toList) (" + y//z".toList) '"'
    (by decide) (by decide) (by decide) (by decide) (by decide)

/-! Block-comment pass lemmas -/

theorem hasOpen_cons_elim {c : Char} {l : List Char} (h : hasOpen (c :: l) = false) :
    ¬(c = '/' ∧ l.take 2 = ['*', '*']) ∧ hasOpen l = false := by
  simp only [hasOpen, Bool.or_eq_false_iff, Bool.and_eq_false_iff,
    decide_eq_false_iff_not] at h
  exact ⟨fun hc => h.1.elim (fun h1 => h1 hc.1) (fun h2 => h2 hc.2), h.2⟩

theorem hasClose_cons_elim {c : Char} {l : List Char} (h : hasClose (c :: l) = false) :
    ¬(c = '*' ∧ l.head? = some '/') ∧ hasClose l = false := by
  simp only [hasClose, Bool.or_eq_false_iff, Bool.and_eq_false_iff,
    decide_eq_false_iff_not] at h
  exact ⟨fun hc => h.1.elim (fun h1 => h1 hc.1) (fun h2 => h2 hc.2), h.2⟩

theorem dropToClose_cons (c : Char) (rest : List Char) :
    dropToClose (c :: rest) =
      if c = '*' ∧ rest.head? = some '/' then some rest.tail else dropToClose rest := rfl

theorem dropToClose_lt : ∀ (l r : List Char), dropToClose l = some r → r.length < l.length := by
  intro l
  induction l with
  | nil => intro r h; cases h
  | cons c rest ih =>
    intro r h
    rw [dropToClose_cons] at h
    split at h
    · cases h
      cases rest with
      | nil => simp_all
      | cons x r' => simp only [List.tail_cons, List.length_cons]; omega
    · exact Nat.lt_trans (ih r h) (by simp)

theorem dropToClose_append : ∀ (b tail : List Char), hasClose b = false →
    dropToClose (b ++ '*' :: '/' :: tail) = some tail := by
  intro b
  induction b with
  | nil => intro tail _; simp [dropToClose]
  | cons x b' ih =>
    intro tail h
    obtain ⟨hx, hb'⟩ := hasClose_cons_elim h
    rw [List.cons_append, dropToClose_cons]
    have hneg : ¬(x = '*' ∧ (b' ++ '*' :: '/' :: tail).head? = some '/') := by
      intro hcond
      cases b' with
      | nil =>
        have hstar : ('*' : Char) = '/' := by simpa using hcond.2
        exact absurd hstar (by decide)
      | cons y b'' => exact hx ⟨hcond.1, by simpa using hcond.2⟩
    rw [if_neg hneg, ih tail hb']

theorem rbcAux_succ_cons (fuel : Nat) (c : Char) (rest : List Char) :
    rbcAux (fuel + 1) (c :: rest) =
      if c = '/' ∧ rest.take 2 = ['*', '*'] then
        match dropToClose (rest.drop 2) with
        | some r => rbcAux fuel r
        | none => c :: rest
      else c :: rbcAux fuel rest := rfl

theorem rbcAux_nil (fuel : Nat) : rbcAux fuel [] = [] := by
  cases fuel <;> rfl

/-- The fuel of `rbcAux` is irrelevant once it dominates the text length. -/
theorem rbcAux_fuel : ∀ (f1 : Nat) (l : List Char) (f2 : Nat),
    l.length ≤ f1 → l.length ≤ f2 → rbcAux f1 l = rbcAux f2 l := by
  intro f1
  induction f1 with
  | zero =>
    intro l f2 h1 _
    have hl : l = [] := List.eq_nil_of_length_eq_zero (Nat.le_zero.mp h1)
    subst hl
    rw [rbcAux_nil, rbcAux_nil]
  | succ g ih =>
    intro l f2 h1 h2
    cases l with
    | nil => rw [rbcAux_nil, rbcAux_nil]
    | cons c rest =>
      cases f2 with
      | zero => simp at h2
      | succ g2 =>
        have hg : rest.length ≤ g := by simpa using h1
        have hg2 : rest.length ≤ g2 := by simpa using h2
        rw [rbcAux_succ_cons, rbcAux_succ_cons]
        by_cases hcond : c = '/' ∧ rest.take 2 = ['*', '*']
        · rw [if_pos hcond, if_pos hcond]
          cases hdtc : dropToClose (rest.drop 2) with
          | none => rfl
          | some r =>
            have hlt : r.length < (rest.drop 2).length := dropToClose_lt _ _ hdtc
            have hdl : (rest.drop 2).length ≤ rest.length := by
              rw [List.length_drop]; omega
            exact ih r g2 (by omega) (by omega)
        · rw [if_neg hcond, if_neg hcond, ih rest g2 hg hg2]

theorem rbc_open_some {rest r : List Char} (h : dropToClose rest = some r) :
    removeBlockComments ('/' :: '*' :: '*' :: rest) = removeBlockComments r := by
  unfold removeBlockComments
  have hlen : ('/' :: '*' :: '*' :: rest).length = (rest.length + 2) + 1 := by simp
  rw [hlen, rbcAux_succ_cons, if_pos ⟨rfl, rfl⟩]
  have hd2 : ('*' :: '*' :: rest).drop 2 = rest := rfl
  rw [hd2, h]
  exact rbcAux_fuel _ r _ (by have := dropToClose_lt rest r h; omega) (Nat.le_refl _)

theorem rbc_open_none {rest : List Char} (h : dropToClose rest = none) :
    removeBlockComments ('/' :: '*' :: '*' :: rest) = '/' :: '*' :: '*' :: rest := by
  unfold removeBlockComments
  have hlen : ('/' :: '*' :: '*' :: rest).length = (rest.length + 2) + 1 := by simp
  rw [hlen, rbcAux_succ_cons, if_pos ⟨rfl, rfl⟩]
  have hd2 : ('*' :: '*' :: rest).drop 2 = rest := rfl
  rw [hd2, h]

theorem rbc_cons {c : Char} {rest : List Char} (h : ¬(c = '/' ∧ rest.take 2 = ['*', '*'])) :
    removeBlockComments (c :: rest) = c :: removeBlockComments rest := by
  unfold removeBlockComments
  have hlen : (c :: rest).length = rest.length + 1 := by simp
  rw [hlen, rbcAux_succ_cons, if_neg h]

/-- Text without the open token passes through the block-comment pass
unchanged. -/
theorem rbc_id : ∀ (l : List Char), hasOpen l = false → removeBlockComments l = l := by
  intro l
  induction l with
  | nil => intro _; rfl
  | cons c rest ih =>
    intro h
    obtain ⟨hc, hrest⟩ := hasOpen_cons_elim h
    rw [rbc_cons hc, ih hrest]

/-- C4: the block-comment pass removes every `/** ... */` span, choosing the
first close token after each open token (non-greedy), across the whole text
and regardless of string-literal boundaries (no hypothesis restricts quotes in
`a`, `b` or `c`); and `remove_comments` runs this pass before any line-level
processing. -/
theorem c4_block_comment_pass :
    (∀ a b c : List Char, hasOpen a = false → hasClose b = false →
      removeBlockComments (a ++ '/' :: '*' :: '*' :: (b ++ '*' :: '/' :: c)) =
        a ++ removeBlockComments c) ∧
    (∀ x : List Char, removeComments x =
      List.intercalate ['\n'] (processLines (splitlinesNoEnds (removeBlockComments x)))) := by
  constructor
  · intro a
    induction a with
    | nil =>
      intro b c _ hb
      rw [List.nil_append, rbc_open_some (dropToClose_append b c hb), List.nil_append]
    | cons x a' ih =>
      intro b c ha hb
      obtain ⟨hx, ha'⟩ := hasOpen_cons_elim ha
      rw [List.cons_append, rbc_cons, ih b c ha' hb, List.cons_append]
      intro hcond
      obtain ⟨hslash, htake⟩ := hcond
      cases a' with
      | nil => simp at htake
      | cons y a'' =>
        cases a'' with
        | nil => simp at htake
        | cons z a''' =>
          rw [List.cons_append, List.cons_append] at htake
          exact hx ⟨hslash, by simpa using htake⟩
  · intro x; rfl

/-! C6 and C9: extractor behaviour on concrete and annotation-free input -/

/-- C6, counterexample to the claim as stated: the extractor splits with
`keepends=True` and joins the kept lines, so segment contents retain their
line terminators — the first segment's content is `X\n`, not `X`. -/
theorem c6_counterexample :
    extractSegments ("// a/b.ts\nX\n// c/d.ts\nY\n".toList) ≠
      [("a/b.ts".toList, "X".toList), ("c/d.ts".toList, "Y".toList)] := by
  decide

/-- C6, amended: on the input with annotation `// a/b.ts`, content line `X`,
annotation `// c/d.ts`, content line `Y`, the extractor returns exactly
`[("a/b.ts", "X\n"), ("c/d.ts", "Y\n")]` — the claimed pairs with each
content line keeping its newline. -/
theorem c6_exact_segments :
    extractSegments ("// a/b.ts\nX\n// c/d.ts\nY\n".toList) =
      [("a/b.ts".toList, "X\n".toList), ("c/d.ts".toList, "Y\n".toList)] := by
  decide

/-- When no line matches the annotation pattern, the loop discards every line
and returns the segments it started with. -/
theorem extractLoop_noMatch : ∀ (lines acc : List (List Char))
    (segs : List (List Char × List Char)),
    (∀ l ∈ lines, pathPatternMatch l = none) →
    extractLoop lines false none acc segs = segs := by
  intro lines
  induction lines with
  | nil => intro acc segs _; cases acc <;> simp [extractLoop, finalizeSeg]
  | cons line rest ih =>
    intro acc segs h
    have hline : pathPatternMatch line = none := h line (List.mem_cons_self _ _)
    simp only [extractLoop, hline, Bool.false_eq_true, false_and, if_false]
    exact ih acc segs (fun m hm => h m (List.mem_cons_of_mem _ hm))

/-- C9: when no line of the input matches the annotation pattern, the
extractor returns the empty segment list (and, being a total function, raises
nothing): zero segments is the no-annotation outcome. -/
theorem c9_no_match_empty (x : List Char)
    (h : ∀ l ∈ splitlinesKeep x, pathPatternMatch l = none) :
    extractSegments x = [] :=
  extractLoop_noMatch (splitlinesKeep x) [] [] h

/-- Witness for C9 on an input with no annotation anywhere. -/
theorem c9_no_match_empty_witness : extractSegments ("hello\nworld\n".toList) = [] :=
  c9_no_match_empty ("hello\nworld\n".toList) (by decide)

/-! C10: the annotation pattern is anchored only at the start -/

theorem takeWhile_eq_self_of {p : Char → Bool} : ∀ {l : List Char},
    (∀ c ∈ l, p c = true) → l.takeWhile p = l := by
  intro l h
  induction l with
  | nil => rfl
  | cons c rest ih =>
    rw [List.takeWhile_cons_of_pos (h c (List.mem_cons_self _ _))]
    rw [ih (fun e he => h e (List.mem_cons_of_mem _ he))]

theorem lastDotWord_allWord : ∀ (l : List Char), (∀ c ∈ l, isWordChar c = true) →
    lastDotWord l = none := by
  intro l
  induction l with
  | nil => intro _; rfl
  | cons c rest ih =>
    intro h
    have hres : lastDotWord rest = none := ih (fun e he => h e (List.mem_cons_of_mem _ he))
    simp only [lastDotWord, hres]
    rw [if_neg (fun hc => wordChar_ne_dot (h c (List.mem_cons_self _ _)) hc.1)]

theorem lastDotWord_shift : ∀ (u v : List Char) (j : Nat), lastDotWord v = some j →
    lastDotWord (u ++ v) = some (u.length + j) := by
  intro u
  induction u with
  | nil => intro v j h; simpa using h
  | cons c u' ih =>
    intro v j h
    rw [List.cons_append]
    simp only [lastDotWord, ih v j h, List.length_cons]
    congr 1
    omega

theorem lastDotWord_cons (c : Char) (rest : List Char) :
    lastDotWord (c :: rest) =
      match lastDotWord rest with
      | some j => some (j + 1)
      | none => if c = '.' ∧ rest.head?.any isWordChar = true then some 0 else none := rfl

theorem lastDotWord_base (base ext : List Char) (hext : ∀ c ∈ ext, isWordChar c = true)
    (hne : ext ≠ []) : lastDotWord (base ++ '.' :: ext) = some base.length := by
  have h0 : lastDotWord ('.' :: ext) = some 0 := by
    have hnone := lastDotWord_allWord ext hext
    rw [lastDotWord_cons, hnone]
    dsimp only
    cases ext with
    | nil => exact absurd rfl hne
    | cons e es =>
      rw [if_pos ⟨rfl, by simp [hext e (List.mem_cons_self _ _)]⟩]
  simpa using lastDotWord_shift base ('.' :: ext) 0 h0

theorem matchCore_full (base ext tail : List Char)
    (hb : base ≠ []) (hbase : ∀ c ∈ base, isPathTokChar c = true)
    (hext : ext ≠ []) (hextw : ∀ c ∈ ext, isWordChar c = true)
    (htail : ∀ c ∈ tail.take 1, isPathTokChar c = false) :
    matchCore (base ++ '.' :: (ext ++ tail)) = some (base ++ '.' :: ext) := by
  have htw : tail.takeWhile isPathTokChar = [] := by
    cases tail with
    | nil => rfl
    | cons t ts => rw [List.takeWhile_cons_of_neg (by simp [htail t (by simp)])]
  have hrun : (base ++ '.' :: (ext ++ tail)).takeWhile isPathTokChar = base ++ '.' :: ext := by
    rw [List.takeWhile_append_of_pos hbase,
      List.takeWhile_cons_of_pos (by decide : isPathTokChar '.' = true),
      List.takeWhile_append_of_pos (fun c hc => wordChar_pathTok (hextw c hc)), htw,
      List.append_nil]
  unfold matchCore
  rw [hrun, lastDotWord_base base ext hextw hext]
  dsimp only
  rw [if_pos (by have := List.length_pos.mpr hb; omega)]
  have hsplit : base ++ '.' :: ext = (base ++ ['.']) ++ ext := by simp
  rw [hsplit, List.take_left' (by simp), List.drop_left' (by simp),
    takeWhile_eq_self_of hextw]

theorem matchPathTok_not_at (c : Char) (r : List Char) (h : c ≠ '@') :
    matchPathTok (c :: r) = matchCore (c :: r) := by
  unfold matchPathTok
  split
  · rename_i r' heq
    injection heq with h1 _
    exact absurd h1 h
  · rfl

/-- C10, counterexample to the claim as stated: the parenthetical example
`// see notes.ts for details` does *not* match the annotation pattern — the
token after the comment prefix is `see`, which has no dot-extension, and the
path must start immediately after the `\s*` run — so the line starts no
segment at all. -/
theorem c10_counterexample :
    pathPatternMatch ("// see notes.ts for details".toList) = none ∧
      extractSegments ("// see notes.ts for details\nX\n".toList) = [] := by
  exact ⟨by decide, by decide⟩

/-- Tail of the annotation match shared by both comment prefixes: after the
prefix, the `\s*` run and the path-shaped token are matched the same way. -/
theorem matchPathTok_shape (sp base ext tail : List Char)
    (hsp : ∀ c ∈ sp, isPySpace c = true)
    (hb : base ≠ []) (hbase : ∀ c ∈ base, isPathTokChar c = true)
    (hext : ext ≠ []) (hextw : ∀ c ∈ ext, isWordChar c = true)
    (htail : ∀ c ∈ tail.take 1, isPathTokChar c = false) :
    matchPathTok ((sp ++ (base ++ '.' :: (ext ++ tail))).dropWhile isPySpace) =
      some (base ++ '.' :: ext) := by
  rw [List.dropWhile_append_of_pos hsp]
  cases base with
  | nil => exact absurd rfl hb
  | cons b0 base' =>
    have hb0 : isPathTokChar b0 = true := hbase b0 (List.mem_cons_self _ _)
    rw [List.cons_append, List.dropWhile_cons_of_neg (by simp [pathTok_not_pySpace hb0])]
    rw [matchPathTok_not_at b0 _ (pathTok_ne_at hb0)]
    exact matchCore_full (b0 :: base') ext tail hb hbase hext hextw htail

/-- C10, amended: the annotation pattern is anchored only at the start of the
line, so a line of leading blanks, a comment prefix (`//` or `#`),
whitespace, and a path-shaped token (`base.ext`, extension of word
characters) matches even when arbitrary further text follows the token
(separated by a non-token character), and the matched path is the token
alone — as the concrete conjuncts show for both prefixes, the trailing text
appears in no segment's content. -/
theorem c10_start_anchored :
    (∀ pfx ws sp base ext tail : List Char,
      (pfx = ['/', '/'] ∨ pfx = ['#']) →
      (∀ c ∈ ws, c = ' ' ∨ c = '\t') →
      (∀ c ∈ sp, isPySpace c = true) →
      base ≠ [] → (∀ c ∈ base, isPathTokChar c = true) →
      ext ≠ [] → (∀ c ∈ ext, isWordChar c = true) →
      (∀ c ∈ tail.take 1, isPathTokChar c = false) →
      pathPatternMatch (ws ++ (pfx ++ (sp ++ (base ++ '.' :: (ext ++ tail))))) =
        some (base ++ '.' :: ext)) ∧
    extractSegments ("// notes.ts for details\nX\n".toList) =
      [("notes.ts".toList, "X\n".toList)] ∧
    extractSegments ("# notes.ts for details\nX\n".toList) =
      [("notes.ts".toList, "X\n".toList)] := by
  refine ⟨?_, by decide, by decide⟩
  intro pfx ws sp base ext tail hpfx hws hsp hb hbase hext hextw htail
  have hws2 : ∀ c ∈ ws, (fun c => decide (c = ' ') || decide (c = '\t')) c = true :=
    fun c hc => by rcases hws c hc with h | h <;> simp [h]
  rcases hpfx with rfl | rfl
  · unfold pathPatternMatch
    simp only [List.cons_append, List.nil_append]
    rw [List.dropWhile_append_of_pos hws2, List.dropWhile_cons_of_neg (by decide)]
    show matchPathTok ((sp ++ (base ++ '.' :: (ext ++ tail))).dropWhile isPySpace) =
      some (base ++ '.' :: ext)
    exact matchPathTok_shape sp base ext tail hsp hb hbase hext hextw htail
  · unfold pathPatternMatch
    simp only [List.cons_append, List.nil_append]
    rw [List.dropWhile_append_of_pos hws2, List.dropWhile_cons_of_neg (by decide)]
    show matchPathTok ((sp ++ (base ++ '.' :: (ext ++ tail))).dropWhile isPySpace) =
      some (base ++ '.' :: ext)
    exact matchPathTok_shape sp base ext tail hsp hb hbase hext hextw htail

/-- Witness for the amended C10 on the lines `// notes.ts for details` and
`  # w-1.ts more words`, one per comment prefix. -/
theorem c10_start_anchored_witness :
    pathPatternMatch (([] : List Char) ++ (['/', '/'] ++
        ((" ".toList) ++ (("notes".toList) ++ '.' :: (("ts".toList) ++ (" for details".toList)))))) =
      some (("notes".toList) ++ '.' :: ("ts".toList)) ∧
    pathPatternMatch (("  ".toList) ++ (['#'] ++
        ((" ".toList) ++ (("w-1".toList) ++ '.' :: (("ts".toList) ++ (" more words".toList)))))) =
      some (("w-1".toList) ++ '.' :: ("ts".toList)) :=
  ⟨c10_start_anchored.1 ['/', '/'] [] (" ".toList) ("notes".toList) ("ts".toList)
      (" for details".toList) (Or.inl rfl)
      (by decide) (by decide) (by decide) (by decide) (by decide) (by decide) (by decide),
    c10_start_anchored.1 ['#'] ("  ".toList) (" ".toList) ("w-1".toList) ("ts".toList)
      (" more words".toList) (Or.inr rfl)
      (by decide) (by decide) (by decide) (by decide) (by decide) (by decide) (by decide)⟩

/-! C7: path normalisation -/

theorem matchCore_chars {r t : List Char} (h : matchCore r = some t) :
    ∀ c ∈ t, isPathTokChar c = true := by
  intro c hc
  unfold matchCore at h
  split at h
  · split at h
    · cases h
      rcases List.mem_append.mp hc with h1 | h1
      · exact List.mem_takeWhile_imp (List.mem_of_mem_take h1)
      · exact wordChar_pathTok (List.mem_takeWhile_imp h1)
    · cases h
  · cases h

theorem matchPathTok_drop1 {s p : List Char} (h : matchPathTok s = some p) :
    ∀ c ∈ p.drop 1, isPathTokChar c = true := by
  unfold matchPathTok at h
  split at h
  · obtain ⟨t, ht, rfl⟩ := Option.map_eq_some'.mp h
    intro c hc
    exact matchCore_chars ht c (by simpa using hc)
  · intro c hc
    exact matchCore_chars h c (List.mem_of_mem_drop hc)

theorem pathPatternMatch_drop1 {line raw : List Char} (h : pathPatternMatch line = some raw) :
    ∀ c ∈ raw.drop 1, isPathTokChar c = true := by
  unfold pathPatternMatch at h
  split at h
  · exact matchPathTok_drop1 h
  · exact matchPathTok_drop1 h
  · cases h

theorem replaceAtSlash_cons2 (c d : Char) (rest : List Char) :
    replaceAtSlash (c :: d :: rest) =
      if c = '@' ∧ d = '/' then 's' :: 'r' :: 'c' :: '/' :: replaceAtSlash rest
      else c :: replaceAtSlash (d :: rest) := rfl

theorem replaceAtSlash_id : ∀ (t : List Char), (∀ c ∈ t, c ≠ '@') → replaceAtSlash t = t := by
  intro t
  induction t using replaceAtSlash.induct with
  | case1 => intro _; rfl
  | case2 c => intro _; rfl
  | case3 c d rest hcond ih =>
    intro h
    exact absurd hcond.1 (h c (List.mem_cons_self _ _))
  | case4 c d rest hcond ih =>
    intro h
    rw [replaceAtSlash_cons2, if_neg hcond, ih (fun e he => h e (List.mem_cons_of_mem _ he))]

/-- C7: a matched raw path that starts with `@/` is normalised to `src/`
followed by the remainder of the token (the matched token can contain `@`
only as its first character, so the replace-all touches nothing else), and
every other matched path passes through unchanged. -/
theorem c7_path_normalized (line raw : List Char) (h : pathPatternMatch line = some raw) :
    (raw.take 2 = ['@', '/'] → normalizePath raw = 's' :: 'r' :: 'c' :: '/' :: raw.drop 2) ∧
    (raw.take 2 ≠ ['@', '/'] → normalizePath raw = raw) := by
  constructor
  · intro htake
    have hshape : raw = '@' :: '/' :: raw.drop 2 := by
      cases raw with
      | nil => simp at htake
      | cons a r1 =>
        cases r1 with
        | nil => simp [List.take] at htake
        | cons b r2 =>
          simp only [List.take, List.cons.injEq, and_true] at htake
          rw [htake.1, htake.2]
          rfl
    have hdrop : ∀ c ∈ raw.drop 2, c ≠ '@' := by
      intro c hc
      have h1 : c ∈ raw.drop 1 := by
        have h2 : raw.drop 2 = (raw.drop 1).drop 1 := by rw [List.drop_drop]
        rw [h2] at hc
        exact List.mem_of_mem_drop hc
      exact pathTok_ne_at (pathPatternMatch_drop1 h c h1)
    unfold normalizePath
    rw [if_pos htake]
    conv_lhs => rw [hshape]
    rw [replaceAtSlash_cons2, if_pos ⟨rfl, rfl⟩, replaceAtSlash_id _ hdrop]
  · intro htake
    unfold normalizePath
    rw [if_neg htake]

/-- Witness for C7: `@/models/user.ts` normalises to `src/models/user.ts`. -/
theorem c7_path_normalized_witness :
    pathPatternMatch ("// @/models/user.ts".toList) = some ("@/models/user.ts".toList) ∧
      normalizePath ("@/models/user.ts".toList) = ("src/models/user.ts".toList) := by
  constructor
  · decide
  · have h := (c7_path_normalized ("// @/models/user.ts".toList) ("@/models/user.ts".toList)
      (by decide)).1 (by decide)
    rw [h]
    decide

/-! Line-splitting lemmas -/

theorem splitKeepAux_flatten : ∀ (cs acc : List Char),
    (splitKeepAux cs acc).flatten = acc.reverse ++ cs := by
  intro cs acc
  induction cs, acc using splitKeepAux.induct <;> simp_all [splitKeepAux]

theorem splitKeep_flatten (x : List Char) : (splitlinesKeep x).flatten = x := by
  simpa [splitlinesKeep] using splitKeepAux_flatten x []

theorem stripTerm_pre : ∀ (l : List Char), stripTerm l <+: l := by
  intro l
  induction l using stripTerm.induct with
  | case1 => exact List.prefix_rfl
  | case2 => simp [stripTerm]
  | case3 => simp [stripTerm]
  | case4 => simp [stripTerm]
  | case5 c rest h1 h2 h3 ih =>
    rw [stripTerm.eq_5 c rest h1 h2 h3]
    obtain ⟨t, ht⟩ := ih
    exact ⟨t, by rw [List.cons_append, ht]⟩

theorem mem_splitNoEnds_within {l x : List Char} (h : l ∈ splitlinesNoEnds x) : l <:+: x := by
  unfold splitlinesNoEnds at h
  obtain ⟨l', hl', rfl⟩ := List.mem_map.mp h
  have h1 : stripTerm l' <+: l' := stripTerm_pre l'
  have h2 : l' <:+: x := by
    have := List.infix_of_mem_flatten hl'
    rwa [splitKeep_flatten] at this
  exact h1.isInfix.trans h2

theorem hasDS_append_elim : ∀ (u v : List Char), hasDS (u ++ v) = false →
    hasDS u = false ∧ hasDS v = false := by
  intro u
  induction u with
  | nil => intro v h; exact ⟨rfl, h⟩
  | cons c u' ih =>
    intro v h
    simp only [List.cons_append, hasDS, Bool.or_eq_false_iff] at h
    obtain ⟨hv1, hv2⟩ := ih v h.2
    refine ⟨?_, hv2⟩
    simp only [hasDS, Bool.or_eq_false_iff]
    refine ⟨?_, hv1⟩
    cases u' with
    | nil => simp
    | cons d u'' => simpa using h.1

theorem hasDS_infix_false {l x : List Char} (h : l <:+: x) (hx : hasDS x = false) :
    hasDS l = false := by
  obtain ⟨s, t, rfl⟩ := h
  have h1 : hasDS (s ++ l) = false := (hasDS_append_elim (s ++ l) t hx).1
  exact (hasDS_append_elim s l h1).2

/-! C5: quote-free comment-free text -/

theorem processLines_filterMap : ∀ (lines : List (List Char)),
    (∀ l ∈ lines, stripLine l none = l) → processLines lines =
      lines.filterMap (fun l => if (pyStrip l).isEmpty then none else some (pyRstrip l)) := by
  intro lines
  induction lines with
  | nil => intro _; rfl
  | cons l rest ih =>
    intro h
    have hl : stripLine l none = l := h l (List.mem_cons_self l rest)
    have hrest := ih (fun m hm => h m (List.mem_cons_of_mem l hm))
    simp only [processLines, hl, List.filterMap_cons, hrest]
    by_cases hb : (pyStrip l).isEmpty
    · simp [hb]
    · simp [hb]

/-- C5, counterexample to the claim as stated: the input `a ` (letter then a
trailing space) has no quote characters and no comment tokens, yet
`remove_comments` right-strips the kept line, so the output differs from the
input with blank lines removed. -/
theorem c5_counterexample :
    (∀ c ∈ ("a ".toList), isQuoteChar c = false) ∧ hasDS ("a ".toList) = false ∧
      hasOpen ("a ".toList) = false ∧
      removeComments ("a ".toList) ≠ blankLinesRemoved ("a ".toList) := by
  refine ⟨by decide, by decide, by decide, by decide⟩

/-- C5, amended: on input with no quote characters and no comment tokens
(no `//` and no `/**`), `remove_comments` equals the input with blank lines
removed and every remaining line right-stripped of trailing whitespace, lines
rejoined with a single newline. -/
theorem c5_strip_dense (x : List Char)
    (hq : ∀ c ∈ x, isQuoteChar c = false)
    (hds : hasDS x = false) (hop : hasOpen x = false) :
    removeComments x = strippedDense x := by
  unfold removeComments strippedDense
  rw [rbc_id x hop]
  rw [processLines_filterMap]
  intro l hl
  apply stripLine_id
  · intro c hc
    exact hq c ((mem_splitNoEnds_within hl).subset hc)
  · exact hasDS_infix_false (mem_splitNoEnds_within hl) hds

/-- Witness for the amended C5 on the input `a \n \nb c `. -/
theorem c5_strip_dense_witness :
    removeComments ("a \n \nb c ".toList) = strippedDense ("a \n \nb c ".toList) :=
  c5_strip_dense ("a \n \nb c ".toList) (by decide) (by decide) (by decide)

/-! Proper-line splitting lemmas -/

theorem splitKeepAux_cons_other (c : Char) (cs acc : List Char)
    (h1 : c ≠ '\n') (h2 : c ≠ '\r') :
    splitKeepAux (c :: cs) acc = splitKeepAux cs (c :: acc) :=
  splitKeepAux.eq_5 acc c cs (fun _ hr _ => absurd hr h2) (fun hr => absurd hr h2)
    (fun hn => absurd hn h1)

theorem splitKeepAux_line : ∀ (body t acc : List Char),
    (∀ c ∈ body, c ≠ '\n' ∧ c ≠ '\r') →
    splitKeepAux (body ++ '\n' :: t) acc =
      (acc.reverse ++ (body ++ ['\n'])) :: splitKeepAux t [] := by
  intro body
  induction body with
  | nil => intro t acc _; simp [splitKeepAux]
  | cons c body' ih =>
    intro t acc h
    have hc := h c (List.mem_cons_self _ _)
    rw [List.cons_append, splitKeepAux_cons_other c _ acc hc.1 hc.2,
      ih t (c :: acc) (fun e he => h e (List.mem_cons_of_mem _ he))]
    simp

theorem isProperLine_shape {l : List Char} (h : isProperLine l = true) :
    ∃ body, l = body ++ ['\n'] ∧ ∀ c ∈ body, c ≠ '\n' ∧ c ≠ '\r' := by
  unfold isProperLine at h
  simp only [Bool.and_eq_true, Bool.not_eq_true', List.all_eq_true,
    Bool.and_eq_true_iff, decide_eq_true_eq] at h
  obtain ⟨⟨hne, hlast⟩, hbody⟩ := h
  have hnil : l ≠ [] := by
    intro hl; subst hl; simp at hne
  refine ⟨l.dropLast, ?_, hbody⟩
  have hd := List.dropLast_append_getLast hnil
  have hg : l.getLast hnil = '\n' := by
    have hq := List.getLast?_eq_getLast_of_ne_nil hnil
    rw [hq] at hlast
    exact Option.some_inj.mp hlast
  rw [hg] at hd
  exact hd.symm

theorem splitKeep_line {l : List Char} (t : List Char) (h : isProperLine l = true) :
    splitlinesKeep (l ++ t) = l :: splitlinesKeep t := by
  obtain ⟨body, rfl, hbody⟩ := isProperLine_shape h
  unfold splitlinesKeep
  rw [List.append_assoc, List.singleton_append, splitKeepAux_line body t [] hbody]
  simp

theorem splitKeep_proper_flatten : ∀ (L : List (List Char)),
    (∀ l ∈ L, isProperLine l = true) → splitlinesKeep L.flatten = L := by
  intro L
  induction L with
  | nil => intro _; rfl
  | cons l L' ih =>
    intro h
    rw [List.flatten_cons, splitKeep_line _ (h l (List.mem_cons_self _ _)),
      ih (fun m hm => h m (List.mem_cons_of_mem _ hm))]

theorem splitKeepAux_ne_nil : ∀ (cs acc : List Char), ∀ l ∈ splitKeepAux cs acc, l ≠ [] := by
  intro cs acc
  induction cs, acc using splitKeepAux.induct with
  | case1 acc hacc => intro l hl; rw [splitKeepAux.eq_1, if_pos hacc] at hl; cases hl
  | case2 acc hacc =>
    intro l hl
    rw [splitKeepAux.eq_1, if_neg hacc] at hl
    rw [List.mem_singleton.mp hl]
    simp only [ne_eq, List.reverse_eq_nil_iff]
    simpa [List.isEmpty_iff] using hacc
  | case3 rest acc ih =>
    intro l hl
    rw [splitKeepAux.eq_2] at hl
    rcases List.mem_cons.mp hl with rfl | hl
    · simp
    · exact ih l hl
  | case4 rest acc hguard ih =>
    intro l hl
    rw [splitKeepAux.eq_3 acc rest hguard] at hl
    rcases List.mem_cons.mp hl with rfl | hl
    · simp
    · exact ih l hl
  | case5 rest acc ih =>
    intro l hl
    rw [splitKeepAux.eq_4] at hl
    rcases List.mem_cons.mp hl with rfl | hl
    · simp
    · exact ih l hl
  | case6 c rest acc hg1 hg2 hg3 ih =>
    intro l hl
    rw [splitKeepAux.eq_5 acc c rest hg1 hg2 hg3] at hl
    exact ih l hl

/-! Blank-line and annotation-line facts -/

theorem pyStrip_nil_all {l : List Char} (h : pyStrip l = []) : ∀ c ∈ l, isPySpace c = true := by
  intro c hc
  unfold pyStrip pyRstrip pyLstrip at h
  have hrev : (l.dropWhile isPySpace).reverse.dropWhile isPySpace = [] := by
    have h2 := congrArg List.reverse h
    simpa using h2
  have hall := List.dropWhile_eq_nil_iff.mp hrev
  have hc2 : c ∈ l.takeWhile isPySpace ++ l.dropWhile isPySpace := by
    rw [List.takeWhile_append_dropWhile]
    exact hc
  rcases List.mem_append.mp hc2 with h1 | h1
  · exact List.mem_takeWhile_imp h1
  · exact hall c (List.mem_reverse.mpr h1)

theorem ann_not_blank {l raw : List Char} (h : pathPatternMatch l = some raw) :
    pyStrip l ≠ [] := by
  intro hblank
  have hall := pyStrip_nil_all hblank
  unfold pathPatternMatch at h
  split at h
  · rename_i heq
    have hmem : ('/' : Char) ∈ l := by
      have h1 : ('/' : Char) ∈ l.dropWhile (fun c => decide (c = ' ') || decide (c = '\t')) := by
        rw [heq]
        exact List.mem_cons_self _ _
      exact (List.dropWhile_sublist _).subset h1
    have hsp := hall '/' hmem
    simp [isPySpace] at hsp
  · rename_i heq
    have hmem : ('#' : Char) ∈ l := by
      have h1 : ('#' : Char) ∈ l.dropWhile (fun c => decide (c = ' ') || decide (c = '\t')) := by
        rw [heq]
        exact List.mem_cons_self _ _
      exact (List.dropWhile_sublist _).subset h1
    have hsp := hall '#' hmem
    simp [isPySpace] at hsp
  · cases h

/-! Extractor loop lemmas -/

theorem extractLoop_cons (line : List Char) (rest : List (List Char)) (b : Bool)
    (cur : Option (List Char)) (acc : List (List Char)) (segs : List (List Char × List Char)) :
    extractLoop (line :: rest) b cur acc segs =
      if b = true ∧ pyStrip line = [] then extractLoop rest false cur acc segs
      else
        match pathPatternMatch line with
        | some raw =>
          extractLoop rest true (some (normalizePath raw)) [] (segs ++ finalizeSeg cur acc)
        | none =>
          match cur with
          | some _ => extractLoop rest false cur (acc ++ [line]) segs
          | none => extractLoop rest false cur acc segs := rfl

theorem finalizeSeg_none (acc : List (List Char)) : finalizeSeg none acc = [] := by
  cases acc <;> rfl

theorem flag_irrel (line : List Char) (rest : List (List Char)) (b : Bool)
    (cur : Option (List Char)) (acc : List (List Char)) (segs : List (List Char × List Char))
    (h : pyStrip line ≠ []) :
    extractLoop (line :: rest) b cur acc segs = extractLoop (line :: rest) false cur acc segs := by
  rw [extractLoop_cons, extractLoop_cons, if_neg (fun hc => h hc.2), if_neg (by simp)]

theorem finalizeSeg_ne (cur : Option (List Char)) (acc : List (List Char))
    (hacc : ∀ l ∈ acc, l ≠ []) :
    ∀ pc ∈ finalizeSeg cur acc, pc.2 ≠ ([] : List Char) := by
  intro pc hpc
  cases cur with
  | none => rw [finalizeSeg_none] at hpc; simp at hpc
  | some p =>
    cases acc with
    | nil => simp [finalizeSeg] at hpc
    | cons a as =>
      have hpc' : pc = (p, (a :: as).flatten) := by simpa [finalizeSeg] using hpc
      rw [hpc']
      have ha : a ≠ [] := hacc a (List.mem_cons_self _ _)
      show a ++ as.flatten ≠ []
      intro he
      exact ha (List.append_eq_nil.mp he).1

theorem extractLoop_content_ne : ∀ (lines : List (List Char)) (b : Bool)
    (cur : Option (List Char)) (acc : List (List Char)) (segs : List (List Char × List Char)),
    (∀ l ∈ lines, l ≠ []) → (∀ l ∈ acc, l ≠ []) →
    (∀ pc ∈ segs, pc.2 ≠ ([] : List Char)) →
    ∀ pc ∈ extractLoop lines b cur acc segs, pc.2 ≠ ([] : List Char) := by
  intro lines
  induction lines with
  | nil =>
    intro b cur acc segs _ hacc hsegs pc hpc
    rcases List.mem_append.mp hpc with h | h
    · exact hsegs pc h
    · exact finalizeSeg_ne cur acc hacc pc h
  | cons line rest ih =>
    intro b cur acc segs hlines hacc hsegs
    have hrest : ∀ l ∈ rest, l ≠ [] := fun l hl => hlines l (List.mem_cons_of_mem _ hl)
    rw [extractLoop_cons]
    by_cases hskip : b = true ∧ pyStrip line = []
    · rw [if_pos hskip]
      exact ih false cur acc segs hrest hacc hsegs
    · rw [if_neg hskip]
      cases hm : pathPatternMatch line with
      | some raw =>
        exact ih true (some (normalizePath raw)) [] (segs ++ finalizeSeg cur acc) hrest
          (by simp)
          (fun pc hpc => (List.mem_append.mp hpc).elim (hsegs pc) (finalizeSeg_ne cur acc hacc pc))
      | none =>
        cases cur with
        | some p =>
          exact ih false (some p) (acc ++ [line]) segs hrest
            (fun l hl => (List.mem_append.mp hl).elim (hacc l)
              (fun h1 => by rw [List.mem_singleton.mp h1]; exact hlines line (List.mem_cons_self _ _)))
            hsegs
        | none => exact ih false none acc segs hrest hacc hsegs

theorem extractLoop_restart (a2 : List Char) (rest : List (List Char)) (p : List Char)
    (h : (pathPatternMatch a2).isSome = true) :
    extractLoop (a2 :: rest) false (some p) [] [] = extractLoop (a2 :: rest) false none [] [] := by
  rw [extractLoop_cons, extractLoop_cons, if_neg (by simp), if_neg (by simp)]
  obtain ⟨raw, hraw⟩ := Option.isSome_iff_exists.mp h
  simp only [hraw]
  rfl

/-- C8: the extractor never emits an empty segment — every returned content is
non-empty — and an annotation immediately followed by another annotation
(possibly with the one skipped blank line between) contributes nothing: the
input is processed exactly as if the first annotation and the blank were
absent. -/
theorem c8_no_empty_segments :
    (∀ (x : List Char) (pc : List Char × List Char),
      pc ∈ extractSegments x → pc.2 ≠ ([] : List Char)) ∧
    (∀ a1 bl a2 rest : List Char,
      isProperLine a1 = true → (pathPatternMatch a1).isSome = true →
      isProperLine a2 = true → (pathPatternMatch a2).isSome = true →
      (bl = [] ∨ (isProperLine bl = true ∧ pyStrip bl = [])) →
      extractSegments (a1 ++ (bl ++ (a2 ++ rest))) = extractSegments (a2 ++ rest)) := by
  constructor
  · intro x pc hpc
    exact extractLoop_content_ne (splitlinesKeep x) false none [] []
      (splitKeepAux_ne_nil x []) (by simp) (by simp) pc hpc
  · intro a1 bl a2 rest h1 h2 h3 h4 hbl
    obtain ⟨raw2, hraw2⟩ := Option.isSome_iff_exists.mp h4
    unfold extractSegments
    rw [splitKeep_line _ h1, extractLoop_cons, if_neg (by simp)]
    obtain ⟨raw1, hraw1⟩ := Option.isSome_iff_exists.mp h2
    simp only [hraw1, finalizeSeg_none, List.append_nil]
    rcases hbl with rfl | ⟨hblp, hblank⟩
    · rw [List.nil_append, splitKeep_line _ h3,
        flag_irrel _ _ _ _ _ _ (ann_not_blank hraw2),
        extractLoop_restart _ _ _ h4]
    · rw [splitKeep_line _ hblp, extractLoop_cons, if_pos ⟨rfl, hblank⟩,
        splitKeep_line _ h3, extractLoop_restart _ _ _ h4]

/-- Witness for C8: the content `Z\n` extracted after the run of two
annotations is non-empty, and the doubled annotation input extracts the same
segments as the single-annotation input. -/
theorem c8_no_empty_segments_witness :
    ("Z\n".toList) ≠ ([] : List Char) ∧
      extractSegments (("// a.ts\n".toList) ++
          (("\n".toList) ++ (("// b.ts\n".toList) ++ ("Z\n".toList)))) =
        extractSegments (("// b.ts\n".toList) ++ ("Z\n".toList)) := by
  constructor
  · exact c8_no_empty_segments.1 (("// b.ts\n".toList) ++ ("Z\n".toList))
      (("b.ts".toList), ("Z\n".toList)) (by decide)
  · exact c8_no_empty_segments.2 ("// a.ts\n".toList) ("\n".toList) ("// b.ts\n".toList)
      ("Z\n".toList) (by decide) (by decide) (by decide) (by decide)
      (Or.inr ⟨by decide, by decide⟩)

/-! C1: round-trip reconstruction -/

theorem assembleLines_cons (b : Block) (bs : List Block) :
    assembleLines (b :: bs) = blockLines b ++ assembleLines bs := by
  simp [assembleLines]

theorem blank_facts {b : Block} (hg : goodBlock b) {bl : List Char} (hbo : b.blank = some bl) :
    isProperLine bl = true ∧ pyStrip bl = [] := by
  obtain ⟨_, _, hblank, _⟩ := hg
  rw [hbo] at hblank
  have hb := Bool.and_eq_true_iff.mp hblank
  exact ⟨hb.1, List.isEmpty_iff.mp hb.2⟩

theorem assembleLines_proper {bs : List Block} (h : ∀ b ∈ bs, goodBlock b) :
    ∀ l ∈ assembleLines bs, isProperLine l = true := by
  intro l hl
  unfold assembleLines at hl
  obtain ⟨L, hL, hlL⟩ := List.mem_flatten.mp hl
  obtain ⟨b, hb, rfl⟩ := List.mem_map.mp hL
  have hg := h b hb
  obtain ⟨hannp, _, _, _, hcont, _⟩ := hg
  unfold blockLines at hlL
  rcases List.mem_cons.mp hlL with rfl | hlL
  · exact hannp
  · rcases List.mem_append.mp hlL with h1 | h1
    · cases hbo : b.blank with
      | none => rw [hbo] at h1; simp [Option.toList] at h1
      | some bl =>
        rw [hbo] at h1
        simp only [Option.toList] at h1
        rw [List.mem_singleton.mp h1]
        exact (blank_facts (h b hb) hbo).1
    · exact (hcont l h1).1

theorem extractLoop_accum : ∀ (cont rest : List (List Char)) (p : List Char)
    (acc : List (List Char)) (segs : List (List Char × List Char)),
    (∀ l ∈ cont, pathPatternMatch l = none) →
    extractLoop (cont ++ rest) false (some p) acc segs =
      extractLoop rest false (some p) (acc ++ cont) segs := by
  intro cont
  induction cont with
  | nil => intro rest p acc segs _; simp
  | cons c cont' ih =>
    intro rest p acc segs h
    rw [List.cons_append, extractLoop_cons, if_neg (by simp)]
    simp only [h c (List.mem_cons_self _ _)]
    rw [ih rest p (acc ++ [c]) segs (fun l hl => h l (List.mem_cons_of_mem _ hl))]
    simp

theorem extractLoop_block (b : Block) (hb : goodBlock b) :
    ∀ (rest : List (List Char)) (cur : Option (List Char)) (acc : List (List Char))
    (segs : List (List Char × List Char)),
    extractLoop (blockLines b ++ rest) false cur acc segs =
      extractLoop rest false (some (segPath b)) b.content (segs ++ finalizeSeg cur acc) := by
  obtain ⟨hannp, hanns, hblank, hcne, hcont, hhead⟩ := hb
  obtain ⟨raw, hraw⟩ := Option.isSome_iff_exists.mp hanns
  obtain ⟨c0, content', hc⟩ : ∃ c0 content', b.content = c0 :: content' := by
    cases hcc : b.content with
    | nil => exact absurd hcc hcne
    | cons x xs => exact ⟨x, xs, rfl⟩
  intro rest cur acc segs
  unfold blockLines
  rw [List.cons_append, extractLoop_cons, if_neg (by simp)]
  simp only [hraw]
  have hpath : normalizePath raw = segPath b := by
    unfold segPath
    rw [hraw]
    rfl
  rw [hpath]
  clear hpath
  cases hbo : b.blank with
  | some bl =>
    obtain ⟨hblp, hblanknil⟩ := blank_facts ⟨hannp, hanns, hblank, hcne, hcont, hhead⟩ hbo
    have htl : ((some bl).toList ++ b.content) ++ rest = bl :: (b.content ++ rest) := by simp
    rw [htl, extractLoop_cons, if_pos ⟨rfl, hblanknil⟩,
      extractLoop_accum b.content rest (segPath b) [] _ (fun l hl => (hcont l hl).2)]
    simp
  | none =>
    have htl : ((Option.toList (none : Option (List Char))) ++ b.content) ++ rest =
        b.content ++ rest := by simp
    rw [htl]
    have hne : pyStrip c0 ≠ [] := by
      have h0 := hhead hbo
      rw [hc] at h0
      simpa using h0
    have hstep : extractLoop (b.content ++ rest) true (some (segPath b)) []
        (segs ++ finalizeSeg cur acc) =
        extractLoop (b.content ++ rest) false (some (segPath b)) []
        (segs ++ finalizeSeg cur acc) := by
      rw [hc, List.cons_append, flag_irrel _ _ _ _ _ _ hne]
    rw [hstep,
      extractLoop_accum b.content rest (segPath b) [] _ (fun l hl => (hcont l hl).2)]
    simp

theorem extractLoop_blocks : ∀ (bs : List Block) (p : List Char) (acc : List (List Char))
    (segs : List (List Char × List Char)),
    (∀ b ∈ bs, goodBlock b) → acc ≠ [] →
    extractLoop (assembleLines bs) false (some p) acc segs =
      segs ++ (p, acc.flatten) :: bs.map segOf := by
  intro bs
  induction bs with
  | nil =>
    intro p acc segs _ hacc
    cases acc with
    | nil => exact absurd rfl hacc
    | cons a as => rfl
  | cons b bs' ih =>
    intro p acc segs hgood hacc
    rw [assembleLines_cons, extractLoop_block b (hgood b (List.mem_cons_self _ _))]
    rw [ih (segPath b) b.content (segs ++ finalizeSeg (some p) acc)
      (fun b' hb' => hgood b' (List.mem_cons_of_mem _ hb'))
      (hgood b (List.mem_cons_self _ _)).2.2.2.1]
    cases acc with
    | nil => exact absurd rfl hacc
    | cons a as => simp [finalizeSeg, segOf]

/-- C1, counterexample to the claim as stated: on the input `X\n` — a content
line with no annotation anywhere — the extractor returns no segments, so no
re-insertion of annotation lines can rebuild the non-empty input, and no
blank line was consumed that could account for the difference. -/
theorem c1_counterexample :
    extractSegments ("X\n".toList) = [] ∧ ("X\n".toList) ≠ ([] : List Char) :=
  ⟨by decide, by decide⟩

/-- C1, amended: for every input assembled from well-formed annotation blocks
(each an annotation line, an optional blank separator line, and a non-empty
run of proper non-annotation content lines whose first line is non-blank when
the separator is absent), the extractor returns exactly one segment per block
in order, and concatenating each block's original annotation line with its
segment's content reproduces the input with the consumed blank separator
lines removed.  Inputs with content before the first annotation (or with no
annotation at all) lose that content, as the counterexample shows. -/
theorem c1_roundtrip (blocks : List Block) (h : ∀ b ∈ blocks, goodBlock b) :
    extractSegments (assemble blocks) = blocks.map segOf ∧
    (List.zipWith (fun b s => b.ann ++ s.2) blocks (extractSegments (assemble blocks))).flatten =
      (blocks.map (fun b => b.ann ++ b.content.flatten)).flatten ∧
    assemble blocks =
      (blocks.map (fun b => b.ann ++ ((b.blank.toList).flatten ++ b.content.flatten))).flatten := by
  have hmain : extractSegments (assemble blocks) = blocks.map segOf := by
    unfold extractSegments assemble
    rw [splitKeep_proper_flatten _ (assembleLines_proper h)]
    cases blocks with
    | nil => rfl
    | cons b bs' =>
      rw [assembleLines_cons, extractLoop_block b (h b (List.mem_cons_self _ _))]
      simp only [finalizeSeg_none, List.append_nil]
      rw [extractLoop_blocks bs' (segPath b) b.content []
        (fun b' hb' => h b' (List.mem_cons_of_mem _ hb'))
        (h b (List.mem_cons_self _ _)).2.2.2.1]
      rfl
  refine ⟨hmain, ?_, ?_⟩
  · rw [hmain]
    have hz : ∀ bs : List Block, List.zipWith (fun b s => b.ann ++ s.2) bs (bs.map segOf) =
        bs.map (fun b => b.ann ++ b.content.flatten) := by
      intro bs
      induction bs with
      | nil => rfl
      | cons b bs' ih => simp [ih, segOf]
    rw [hz]
  · have ha : ∀ bs : List Block, assemble bs =
        (bs.map (fun b => b.ann ++ ((b.blank.toList).flatten ++ b.content.flatten))).flatten := by
      intro bs
      induction bs with
      | nil => rfl
      | cons b bs' ih =>
        unfold assemble at *
        rw [assembleLines_cons, List.flatten_append, ih]
        simp [blockLines]
    exact ha blocks

/-- Witness for the amended C1 on a two-block input (`// a.ts` with content
`X`, then `// @/b.ts`, a blank separator, and content `Y` plus a blank
line). -/
theorem c1_roundtrip_witness :
    extractSegments (assemble [(Block.mk ("// a.ts\n".toList) none [("X\n".toList)]),
        (Block.mk ("// @/b.ts\n".toList) (some ("\n".toList)) [("Y\n".toList), ("\n".toList)])]) =
      [(Block.mk ("// a.ts\n".toList) none [("X\n".toList)]),
        (Block.mk ("// @/b.ts\n".toList) (some ("\n".toList)) [("Y\n".toList), ("\n".toList)])].map segOf ∧
    (List.zipWith (fun b s => b.ann ++ s.2)
        [(Block.mk ("// a.ts\n".toList) none [("X\n".toList)]),
          (Block.mk ("// @/b.ts\n".toList) (some ("\n".toList)) [("Y\n".toList), ("\n".toList)])]
        (extractSegments (assemble [(Block.mk ("// a.ts\n".toList) none [("X\n".toList)]),
          (Block.mk ("// @/b.ts\n".toList) (some ("\n".toList)) [("Y\n".toList), ("\n".toList)])]))).flatten =
      ([(Block.mk ("// a.ts\n".toList) none [("X\n".toList)]),
        (Block.mk ("// @/b.ts\n".toList) (some ("\n".toList)) [("Y\n".toList), ("\n".toList)])].map
          (fun b => b.ann ++ b.content.flatten)).flatten ∧
    assemble [(Block.mk ("// a.ts\n".toList) none [("X\n".toList)]),
        (Block.mk ("// @/b.ts\n".toList) (some ("\n".toList)) [("Y\n".toList), ("\n".toList)])] =
      ([(Block.mk ("// a.ts\n".toList) none [("X\n".toList)]),
        (Block.mk ("// @/b.ts\n".toList) (some ("\n".toList)) [("Y\n".toList), ("\n".toList)])].map
          (fun b => b.ann ++ ((b.blank.toList).flatten ++ b.content.flatten))).flatten :=
  c1_roundtrip [(Block.mk ("// a.ts\n".toList) none [("X\n".toList)]),
    (Block.mk ("// @/b.ts\n".toList) (some ("\n".toList)) [("Y\n".toList), ("\n".toList)])] (by decide)

/-- Witness for C4: a block comment inside a string literal is removed. -/
theorem c4_block_comment_pass_witness :
    removeBlockComments (("x = \"".toList) ++
        '/' :: '*' :: '*' :: ((" doc ".toList) ++ '*' :: '/' :: ("\" + y".toList))) =
      ("x = \"".toList) ++ removeBlockComments ("\" + y".toList) ∧
    removeComments ("z".toList) =
      List.intercalate ['\n'] (processLines (splitlinesNoEnds (removeBlockComments ("z".toList)))) :=
  ⟨c4_block_comment_pass.1 ("x = \"".toList) (" doc ".toList) ("\" + y".toList)
    (by decide) (by decide), c4_block_comment_pass.2 ("z".toList)⟩
